import Mathlib

/-!
A verification development for the cheated-runs repair tool
(fix_cheated_runs.py).

The Python program works against a MySQL store with tables
checkpoints, checkpoint_connections, player_runs, mapids and
checkpoint_statistics.  We embed the store shallowly: each table is a
list of records, machine integers become Int, the (Python float)
reference time becomes an exact rational, and the SQL statements of the
program become list traversals.  The display-string fields produced by
ticks_to_time_format are derived reporting output touched by no proof
here and are left out of the embedded rows.
-/

namespace CheatedRuns

/-- A row of the checkpoints table: id, owning map, terminal flag (isend). -/
structure Checkpoint where
  cp_id : Int
  mapid : Int
  isend : Bool
deriving DecidableEq

/-- A row of the checkpoint_connections table: a directed edge scoped to a map. -/
structure Connection where
  cp_id : Int
  child_cp_id : Int
  mapid : Int
deriving DecidableEq

/-- A row of the player_runs table (fields the program reads). -/
structure PlayerRun where
  run_id : Int
  mapid : Int
  player_id : Int
  playername : String
  fps : Int
  finished_map : Bool
deriving DecidableEq

/-- A row of the checkpoint_statistics table: per (run, checkpoint) elapsed ticks. -/
structure SegStat where
  run_id : Int
  cp_id : Int
  time_played : Int
deriving DecidableEq

/-- The whole relational store the program talks to. -/
structure Store where
  checkpoints : List Checkpoint
  connections : List Connection
  playerRuns : List PlayerRun
  mapids : List (Int × String)
  stats : List SegStat
deriving DecidableEq

/-- Python int() applied to a rational: truncation toward zero. -/
def pyInt (q : ℚ) : ℤ :=
  if 0 ≤ q then ⌊q⌋ else ⌈q⌉

/-- validate_input_parameters (fix_cheated_runs.py lines 184-211): checks run in
source order; raising ValidationError is modelled by Except.error carrying the
message prefix. -/
def validate_input_parameters (from_cp_id to_cp_id : Int) (ref_time : ℚ) :
    Except String Unit :=
  if from_cp_id ≤ 0 then .error "from_cp_id must be positive"
  else if to_cp_id ≤ 0 then .error "to_cp_id must be positive"
  else if from_cp_id = to_cp_id then .error "from_cp_id and to_cp_id must be different"
  else if ref_time ≤ 0.05 then .error "ref_time must be > 0.05 seconds"
  else if ref_time > 3600 then .error "ref_time must be <= 3600 seconds (1 hour)"
  else .ok ()

/-- The outgoing-edge query shared by both BFS loops (SELECT child_cp_id FROM
checkpoint_connections WHERE cp_id = current AND mapid = mapid). -/
def childrenOf (conns : List Connection) (cp mapid : Int) : List Int :=
  (conns.filter (fun c => c.cp_id = cp ∧ c.mapid = mapid)).map (fun c => c.child_cp_id)

/-- Loop state of the BFS in get_following_checkpoints: the accumulated result
set (a Python set, modelled as a duplicate-free insertion list), the work list
to_visit and the visited set. -/
structure BState where
  following : List Int
  frontier : List Int
  visited : List Int
deriving DecidableEq

/-- Initial loop state of get_following_checkpoints (lines 307-309): the result
set starts as the singleton of the start checkpoint. -/
def initB (to_cp_id : Int) : BState :=
  { following := [to_cp_id], frontier := [to_cp_id], visited := [] }

/-- Python set.add on the insertion-list model of a set. -/
def setAdd (acc : List Int) (c : Int) : List Int :=
  if c ∈ acc then acc else acc ++ [c]

/-- One iteration of the while-loop of get_following_checkpoints
(lines 311-329): pop the head of to_visit, skip if visited, otherwise mark
visited and push every not-yet-visited child, adding it to the result set. -/
def bstep (conns : List Connection) (mapid : Int) (s : BState) : BState :=
  match s.frontier with
  | [] => s
  | current :: rest =>
    if current ∈ s.visited then { s with frontier := rest }
    else
      let visited := current :: s.visited
      let newkids := (childrenOf conns current mapid).filter (fun c => c ∉ visited)
      { following := newkids.foldl setAdd s.following,
        frontier := rest ++ newkids,
        visited := visited }

/-- Fuelled iteration of the get_following_checkpoints loop. -/
def bfsRun (conns : List Connection) (mapid : Int) : Nat → BState → BState
  | 0, s => s
  | n + 1, s => bfsRun conns mapid n (bstep conns mapid s)

/-- Every checkpoint id the loop can ever enqueue: the start node together with
the target of every connection row. -/
def nodeUniv (conns : List Connection) (start : Int) : Finset Int :=
  insert start (conns.map (fun c => c.child_cp_id)).toFinset

/-- Termination measure of the BFS loop: unvisited universe nodes weighted by
the maximal number of children one expansion can enqueue, plus the work-list
length. -/
def bMeasure (conns : List Connection) (start : Int) (s : BState) : Nat :=
  (nodeUniv conns start \ s.visited.toFinset).card * (conns.length + 1) + s.frontier.length

/-- Fuel sufficient to drain the work list, computed from the initial state. -/
def bfsFuel (conns : List Connection) (start : Int) : Nat :=
  bMeasure conns start (initB start)

/-- get_following_checkpoints (lines 294-332): run the BFS loop to completion;
the returned Python set is the insertion-list following. -/
def get_following_checkpoints (conns : List Connection) (to_cp_id mapid : Int) : List Int :=
  (bfsRun conns mapid (bfsFuel conns to_cp_id) (initB to_cp_id)).following

/-- A state with an empty work list is a fixed point of the loop body. -/
theorem bstep_of_done (conns : List Connection) (mapid : Int) (s : BState)
    (h : s.frontier = []) : bstep conns mapid s = s := by
  unfold bstep
  rw [h]

/-- A state with an empty work list is a fixed point of the fuelled loop. -/
theorem bfsRun_of_done (conns : List Connection) (mapid : Int) (n : Nat) (s : BState)
    (h : s.frontier = []) : bfsRun conns mapid n s = s := by
  induction n with
  | zero => rfl
  | succ n ih => rw [bfsRun, bstep_of_done conns mapid s h, ih]

/-- Work-list soundness invariant: everything enqueued lies in the node universe. -/
def BInv (conns : List Connection) (start : Int) (s : BState) : Prop :=
  ∀ x ∈ s.frontier, x ∈ nodeUniv conns start

theorem childrenOf_subset_univ (conns : List Connection) (cp mapid start : Int) :
    ∀ c ∈ childrenOf conns cp mapid, c ∈ nodeUniv conns start := by
  intro c hc
  simp only [childrenOf, List.mem_map, List.mem_filter] at hc
  obtain ⟨e, ⟨he, _⟩, rfl⟩ := hc
  simp only [nodeUniv, Finset.mem_insert, List.mem_toFinset, List.mem_map]
  exact Or.inr ⟨e, he, rfl⟩

theorem BInv_initB (conns : List Connection) (start : Int) :
    BInv conns start (initB start) := by
  intro x hx
  simp only [initB, List.mem_singleton] at hx
  simp [hx, nodeUniv]

/-- Unfolding equation for the skip branch of the loop body. -/
theorem bstep_eq_skip (conns : List Connection) (mapid : Int) (s : BState)
    (current : Int) (rest : List Int) (hf : s.frontier = current :: rest)
    (hv : current ∈ s.visited) :
    bstep conns mapid s = { s with frontier := rest } := by
  unfold bstep
  rw [hf]
  simp [hv]

/-- Unfolding equation for the expansion branch of the loop body. -/
theorem bstep_eq_expand (conns : List Connection) (mapid : Int) (s : BState)
    (current : Int) (rest : List Int) (hf : s.frontier = current :: rest)
    (hv : current ∉ s.visited) :
    bstep conns mapid s =
      { following := ((childrenOf conns current mapid).filter
          (fun c => c ∉ current :: s.visited)).foldl setAdd s.following,
        frontier := rest ++ (childrenOf conns current mapid).filter
          (fun c => c ∉ current :: s.visited),
        visited := current :: s.visited } := by
  unfold bstep
  rw [hf]
  simp [hv]

theorem BInv_bstep (conns : List Connection) (mapid start : Int) (s : BState)
    (h : BInv conns start s) : BInv conns start (bstep conns mapid s) := by
  cases hf : s.frontier with
  | nil => rw [bstep_of_done conns mapid s hf]; exact h
  | cons current rest =>
    by_cases hv : current ∈ s.visited
    · rw [bstep_eq_skip conns mapid s current rest hf hv]
      exact fun x hx => h x (by rw [hf]; exact List.mem_cons_of_mem _ hx)
    · rw [bstep_eq_expand conns mapid s current rest hf hv]
      intro x hx
      simp only [List.mem_append, List.mem_filter] at hx
      rcases hx with hx | ⟨hx, _⟩
      · exact h x (by rw [hf]; exact List.mem_cons_of_mem _ hx)
      · exact childrenOf_subset_univ conns current mapid start x hx

/-- The length of the outgoing-edge query result is at most the edge-table size. -/
theorem childrenOf_length_le (conns : List Connection) (cp mapid : Int) :
    (childrenOf conns cp mapid).length ≤ conns.length := by
  unfold childrenOf
  rw [List.length_map]
  exact List.length_filter_le _ _

/-- On a non-drained state the measure strictly decreases. -/
theorem bMeasure_bstep_lt (conns : List Connection) (mapid start : Int) (s : BState)
    (hinv : BInv conns start s) (h : s.frontier ≠ []) :
    bMeasure conns start (bstep conns mapid s) < bMeasure conns start s := by
  cases hf : s.frontier with
  | nil => exact absurd hf h
  | cons current rest =>
    by_cases hv : current ∈ s.visited
    · rw [bstep_eq_skip conns mapid s current rest hf hv]
      simp [bMeasure, hf]
    · rw [bstep_eq_expand conns mapid s current rest hf hv]
      have hcu : current ∈ nodeUniv conns start := hinv current (by rw [hf]; exact List.mem_cons_self _ _)
      have hcard : (nodeUniv conns start \ (current :: s.visited).toFinset).card + 1 ≤
          (nodeUniv conns start \ s.visited.toFinset).card := by
        have hsub : nodeUniv conns start \ (current :: s.visited).toFinset ⊂
            nodeUniv conns start \ s.visited.toFinset := by
          constructor
          · intro x hx
            simp only [Finset.mem_sdiff, List.toFinset_cons, Finset.mem_insert,
              List.mem_toFinset] at hx ⊢
            exact ⟨hx.1, fun hmem => hx.2 (Or.inr hmem)⟩
          · intro hcontra
            have : current ∈ nodeUniv conns start \ (current :: s.visited).toFinset :=
              hcontra (by simp [Finset.mem_sdiff, hcu, hv])
            simp at this
        exact Nat.succ_le_of_lt (Finset.card_lt_card hsub)
      have hkids : ((childrenOf conns current mapid).filter
          (fun c => c ∉ current :: s.visited)).length ≤ conns.length :=
        le_trans (List.length_filter_le _ _) (childrenOf_length_le conns current mapid)
      simp only [bMeasure, hf, List.length_append, List.length_cons]
      calc (nodeUniv conns start \ (current :: s.visited).toFinset).card * (conns.length + 1)
            + (rest.length + ((childrenOf conns current mapid).filter
              (fun c => c ∉ current :: s.visited)).length)
          ≤ (nodeUniv conns start \ (current :: s.visited).toFinset).card * (conns.length + 1)
            + (rest.length + conns.length) := by omega
        _ < ((nodeUniv conns start \ (current :: s.visited).toFinset).card + 1) * (conns.length + 1)
            + rest.length := by ring_nf; omega
        _ ≤ (nodeUniv conns start \ s.visited.toFinset).card * (conns.length + 1)
            + rest.length := by
              have := Nat.mul_le_mul_right (conns.length + 1) hcard
              omega
        _ ≤ (nodeUniv conns start \ s.visited.toFinset).card * (conns.length + 1)
            + (rest.length + 1) := by omega

/-- Enough fuel drains the work list. -/
theorem bfsRun_done_of_fuel (conns : List Connection) (mapid start : Int) :
    ∀ k s, BInv conns start s → bMeasure conns start s ≤ k →
    (bfsRun conns mapid k s).frontier = [] := by
  intro k
  induction k with
  | zero =>
    intro s _ hm
    simp only [bMeasure, Nat.le_zero, Nat.add_eq_zero] at hm
    exact List.length_eq_zero.mp hm.2
  | succ k ih =>
    intro s hinv hm
    by_cases hf : s.frontier = []
    · rw [bfsRun, bstep_of_done conns mapid s hf, bfsRun_of_done conns mapid k s hf]
      exact hf
    · rw [bfsRun]
      exact ih (bstep conns mapid s) (BInv_bstep conns mapid start s hinv)
        (by have := bMeasure_bstep_lt conns mapid start s hinv hf; omega)

/-- Python set.add only ever grows the result set. -/
theorem subset_foldl_setAdd (l acc : List Int) : acc ⊆ l.foldl setAdd acc := by
  induction l generalizing acc with
  | nil => exact fun x hx => hx
  | cons c cs ih =>
    intro x hx
    refine List.Subset.trans ?_ (ih (setAdd acc c)) hx
    intro y hy
    unfold setAdd
    by_cases hc : c ∈ acc
    · simpa [hc] using hy
    · simp [hc, hy]

theorem following_subset_bstep (conns : List Connection) (mapid : Int) (s : BState) :
    s.following ⊆ (bstep conns mapid s).following := by
  cases hf : s.frontier with
  | nil => rw [bstep_of_done conns mapid s hf]; exact fun x hx => hx
  | cons current rest =>
    by_cases hv : current ∈ s.visited
    · rw [bstep_eq_skip conns mapid s current rest hf hv]; exact fun x hx => hx
    · rw [bstep_eq_expand conns mapid s current rest hf hv]
      exact subset_foldl_setAdd _ _

theorem following_subset_bfsRun (conns : List Connection) (mapid : Int) (n : Nat)
    (s : BState) : s.following ⊆ (bfsRun conns mapid n s).following := by
  induction n generalizing s with
  | zero => exact fun x hx => hx
  | succ n ih =>
    rw [bfsRun]
    exact List.Subset.trans (following_subset_bstep conns mapid s) (ih (bstep conns mapid s))

/-- Loop state of the reachability BFS inside validate_checkpoints: visited
set, work list, and the reachable flag set by the break. -/
structure RState where
  visited : List Int
  frontier : List Int
  found : Bool
deriving DecidableEq

/-- Initial loop state of the reachability check (lines 260-262). -/
def initR (from_cp_id : Int) : RState :=
  { visited := [], frontier := [from_cp_id], found := false }

/-- One iteration of the reachability while-loop in validate_checkpoints
(lines 264-284): pop, skip if visited, break with reachable = True on hitting
the target, otherwise mark visited and enqueue unvisited children. -/
def rstep (conns : List Connection) (mapid to_cp : Int) (s : RState) : RState :=
  if s.found then s
  else
    match s.frontier with
    | [] => s
    | current :: rest =>
      if current ∈ s.visited then { s with frontier := rest }
      else if current = to_cp then { s with found := true }
      else
        let visited := current :: s.visited
        { visited := visited,
          frontier := rest ++ (childrenOf conns current mapid).filter (fun c => c ∉ visited),
          found := false }

/-- Fuelled iteration of the reachability loop. -/
def rRun (conns : List Connection) (mapid to_cp : Int) : Nat → RState → RState
  | 0, s => s
  | n + 1, s => rRun conns mapid to_cp n (rstep conns mapid to_cp s)

/-- The loop has exited: the break fired or the work list drained. -/
def rDone (s : RState) : Prop :=
  s.found = true ∨ s.frontier = []

instance (s : RState) : Decidable (rDone s) := by
  unfold rDone
  infer_instance

/-- Termination measure of the reachability loop. -/
def rMeasure (conns : List Connection) (start : Int) (s : RState) : Nat :=
  (nodeUniv conns start \ s.visited.toFinset).card * (conns.length + 1) + s.frontier.length

/-- Fuel sufficient to exit the reachability loop, from the initial state. -/
def rFuel (conns : List Connection) (start : Int) : Nat :=
  rMeasure conns start (initR start) + 1

/-- The reachability portion of validate_checkpoints (lines 258-292): the value
of the reachable flag when the loop exits.  validate_checkpoints returns it as
a normal result (alongside the map id), raising no error when it is false. -/
def is_reachable (conns : List Connection) (mapid from_cp_id to_cp_id : Int) : Bool :=
  (rRun conns mapid to_cp_id (rFuel conns from_cp_id) (initR from_cp_id)).found

/-- An exited state is a fixed point of the loop body. -/
theorem rstep_of_done (conns : List Connection) (mapid to_cp : Int) (s : RState)
    (h : rDone s) : rstep conns mapid to_cp s = s := by
  unfold rstep
  rcases h with h | h
  · rw [h]
    simp
  · rw [h]
    by_cases hfound : s.found <;> simp [hfound]

/-- An exited state is a fixed point of the fuelled loop. -/
theorem rRun_of_done (conns : List Connection) (mapid to_cp : Int) (n : Nat) (s : RState)
    (h : rDone s) : rRun conns mapid to_cp n s = s := by
  induction n with
  | zero => rfl
  | succ n ih => rw [rRun, rstep_of_done conns mapid to_cp s h, ih]

/-- Unfolding equation for the skip branch of the reachability loop body. -/
theorem rstep_eq_skip (conns : List Connection) (mapid to_cp : Int) (s : RState)
    (current : Int) (rest : List Int) (hfound : s.found = false)
    (hf : s.frontier = current :: rest) (hv : current ∈ s.visited) :
    rstep conns mapid to_cp s = { s with frontier := rest } := by
  unfold rstep
  rw [hfound, hf]
  simp [hv]

/-- Unfolding equation for the break branch of the reachability loop body. -/
theorem rstep_eq_found (conns : List Connection) (mapid to_cp : Int) (s : RState)
    (rest : List Int) (hfound : s.found = false)
    (hf : s.frontier = to_cp :: rest) (hv : to_cp ∉ s.visited) :
    rstep conns mapid to_cp s = { s with found := true } := by
  unfold rstep
  rw [hfound, hf]
  simp [hv]

/-- Unfolding equation for the expansion branch of the reachability loop body. -/
theorem rstep_eq_expand (conns : List Connection) (mapid to_cp : Int) (s : RState)
    (current : Int) (rest : List Int) (hfound : s.found = false)
    (hf : s.frontier = current :: rest) (hv : current ∉ s.visited)
    (hne : current ≠ to_cp) :
    rstep conns mapid to_cp s =
      { visited := current :: s.visited,
        frontier := rest ++ (childrenOf conns current mapid).filter
          (fun c => c ∉ current :: s.visited),
        found := false } := by
  unfold rstep
  rw [hfound, hf]
  simp [hv, hne]

/-- One directed edge of the connection graph scoped to a map. -/
def Edge (conns : List Connection) (mapid : Int) (a b : Int) : Prop :=
  b ∈ childrenOf conns a mapid

/-- A directed path (possibly empty) in the connection graph scoped to a map. -/
def Reaches (conns : List Connection) (mapid : Int) : Int → Int → Prop :=
  Relation.ReflTransGen (Edge conns mapid)

/-- The loop invariant of the reachability BFS: the work list stays inside the
node universe, everything seen is reachable from the start, the break flag
implies a path to the target, the target never enters visited, the visited set
is closed up to the work list, and the start node is tracked. -/
structure RInv (conns : List Connection) (mapid start to_cp : Int) (s : RState) : Prop where
  frontier_univ : ∀ x ∈ s.frontier, x ∈ nodeUniv conns start
  visited_reach : ∀ x ∈ s.visited, Reaches conns mapid start x
  frontier_reach : ∀ x ∈ s.frontier, Reaches conns mapid start x
  found_reach : s.found = true → Reaches conns mapid start to_cp
  to_not_visited : to_cp ∉ s.visited
  closed : ∀ v ∈ s.visited, ∀ c, Edge conns mapid v c → c ∈ s.visited ∨ c ∈ s.frontier
  start_tracked : start ∈ s.visited ∨ start ∈ s.frontier ∨ s.found = true

theorem RInv_initR (conns : List Connection) (mapid start to_cp : Int) :
    RInv conns mapid start to_cp (initR start) := by
  constructor
  · intro x hx
    simp only [initR, List.mem_singleton] at hx
    simp [hx, nodeUniv]
  · intro x hx
    simp [initR] at hx
  · intro x hx
    simp only [initR, List.mem_singleton] at hx
    exact hx ▸ Relation.ReflTransGen.refl
  · intro hfound
    simp [initR] at hfound
  · simp [initR]
  · intro v hv
    simp [initR] at hv
  · simp [initR]

theorem RInv_rstep (conns : List Connection) (mapid start to_cp : Int) (s : RState)
    (h : RInv conns mapid start to_cp s) :
    RInv conns mapid start to_cp (rstep conns mapid to_cp s) := by
  by_cases hdone : rDone s
  · rw [rstep_of_done conns mapid to_cp s hdone]
    exact h
  · have hfound : s.found = false := by
      rcases Bool.eq_false_or_eq_true s.found with hb | hb
      · exact absurd (Or.inl hb) hdone
      · exact hb
    cases hf : s.frontier with
    | nil => exact absurd (Or.inr hf) hdone
    | cons current rest =>
      have hcur_reach : Reaches conns mapid start current :=
        h.frontier_reach current (by rw [hf]; exact List.mem_cons_self _ _)
      by_cases hv : current ∈ s.visited
      · rw [rstep_eq_skip conns mapid to_cp s current rest hfound hf hv]
        constructor
        · exact fun x hx => h.frontier_univ x (by rw [hf]; exact List.mem_cons_of_mem _ hx)
        · exact h.visited_reach
        · exact fun x hx => h.frontier_reach x (by rw [hf]; exact List.mem_cons_of_mem _ hx)
        · exact h.found_reach
        · exact h.to_not_visited
        · intro v hvv c hc
          rcases h.closed v hvv c hc with hcv | hcf
          · exact Or.inl hcv
          · rw [hf] at hcf
            rcases List.mem_cons.mp hcf with rfl | hcf
            · exact Or.inl hv
            · exact Or.inr hcf
        · rcases h.start_tracked with hs | hs | hs
          · exact Or.inl hs
          · rw [hf] at hs
            rcases List.mem_cons.mp hs with rfl | hs
            · exact Or.inl hv
            · exact Or.inr (Or.inl hs)
          · exact Or.inr (Or.inr hs)
      · by_cases hto : current = to_cp
        · rw [hto] at hf
          rw [rstep_eq_found conns mapid to_cp s rest hfound hf (hto ▸ hv)]
          constructor
          · exact h.frontier_univ
          · exact h.visited_reach
          · exact h.frontier_reach
          · exact fun _ => hto ▸ hcur_reach
          · exact h.to_not_visited
          · exact h.closed
          · rcases h.start_tracked with hs | hs | _
            · exact Or.inl hs
            · exact Or.inr (Or.inl hs)
            · exact Or.inr (Or.inr rfl)
        · rw [rstep_eq_expand conns mapid to_cp s current rest hfound hf hv hto]
          constructor
          · intro x hx
            simp only [List.mem_append, List.mem_filter] at hx
            rcases hx with hx | ⟨hx, _⟩
            · exact h.frontier_univ x (by rw [hf]; exact List.mem_cons_of_mem _ hx)
            · exact childrenOf_subset_univ conns current mapid start x hx
          · intro x hx
            rcases List.mem_cons.mp hx with rfl | hx
            · exact hcur_reach
            · exact h.visited_reach x hx
          · intro x hx
            simp only [List.mem_append, List.mem_filter] at hx
            rcases hx with hx | ⟨hx, _⟩
            · exact h.frontier_reach x (by rw [hf]; exact List.mem_cons_of_mem _ hx)
            · exact Relation.ReflTransGen.tail hcur_reach hx
          · intro hcontra
            simp at hcontra
          · intro hcontra
            rcases List.mem_cons.mp hcontra with rfl | hcontra
            · exact hto rfl
            · exact h.to_not_visited hcontra
          · intro v hvv c hc
            rcases List.mem_cons.mp hvv with rfl | hvv
            · by_cases hcv : c ∈ v :: s.visited
              · exact Or.inl hcv
              · refine Or.inr (List.mem_append.mpr (Or.inr ?_))
                simp only [List.mem_filter, decide_eq_true_eq]
                exact ⟨hc, hcv⟩
            · rcases h.closed v hvv c hc with hcv | hcf
              · exact Or.inl (List.mem_cons_of_mem _ hcv)
              · rw [hf] at hcf
                rcases List.mem_cons.mp hcf with rfl | hcf
                · exact Or.inl (List.mem_cons_self _ _)
                · exact Or.inr (List.mem_append.mpr (Or.inl hcf))
          · rcases h.start_tracked with hs | hs | hs
            · exact Or.inl (List.mem_cons_of_mem _ hs)
            · rw [hf] at hs
              rcases List.mem_cons.mp hs with rfl | hs
              · exact Or.inl (List.mem_cons_self _ _)
              · exact Or.inr (Or.inl (List.mem_append.mpr (Or.inl hs)))
            · rw [hfound] at hs
              exact absurd hs (by simp)

theorem RInv_rRun (conns : List Connection) (mapid start to_cp : Int) (n : Nat)
    (s : RState) (h : RInv conns mapid start to_cp s) :
    RInv conns mapid start to_cp (rRun conns mapid to_cp n s) := by
  induction n generalizing s with
  | zero => exact h
  | succ n ih => exact ih (rstep conns mapid to_cp s) (RInv_rstep conns mapid start to_cp s h)

/-- The reachability work list stays inside the node universe. -/
theorem frontier_univ_rstep (conns : List Connection) (mapid start to_cp : Int)
    (s : RState) (h : ∀ x ∈ s.frontier, x ∈ nodeUniv conns start) :
    ∀ x ∈ (rstep conns mapid to_cp s).frontier, x ∈ nodeUniv conns start := by
  by_cases hdone : rDone s
  · rw [rstep_of_done conns mapid to_cp s hdone]
    exact h
  · have hfound : s.found = false := by
      rcases Bool.eq_false_or_eq_true s.found with hb | hb
      · exact absurd (Or.inl hb) hdone
      · exact hb
    cases hf : s.frontier with
    | nil => exact absurd (Or.inr hf) hdone
    | cons current rest =>
      by_cases hv : current ∈ s.visited
      · rw [rstep_eq_skip conns mapid to_cp s current rest hfound hf hv]
        exact fun x hx => h x (by rw [hf]; exact List.mem_cons_of_mem _ hx)
      · by_cases hto : current = to_cp
        · rw [hto] at hf
          rw [rstep_eq_found conns mapid to_cp s rest hfound hf (hto ▸ hv)]
          exact h
        · rw [rstep_eq_expand conns mapid to_cp s current rest hfound hf hv hto]
          intro x hx
          simp only [List.mem_append, List.mem_filter] at hx
          rcases hx with hx | ⟨hx, _⟩
          · exact h x (by rw [hf]; exact List.mem_cons_of_mem _ hx)
          · exact childrenOf_subset_univ conns current mapid start x hx

/-- On a running state that does not hit the break, the measure strictly
decreases. -/
theorem rMeasure_rstep_lt (conns : List Connection) (mapid start to_cp : Int)
    (s : RState) (hinv : ∀ x ∈ s.frontier, x ∈ nodeUniv conns start)
    (hdone : ¬ rDone s) (hnb : ¬ rDone (rstep conns mapid to_cp s)) :
    rMeasure conns start (rstep conns mapid to_cp s) < rMeasure conns start s := by
  have hfound : s.found = false := by
    rcases Bool.eq_false_or_eq_true s.found with hb | hb
    · exact absurd (Or.inl hb) hdone
    · exact hb
  cases hf : s.frontier with
  | nil => exact absurd (Or.inr hf) hdone
  | cons current rest =>
    by_cases hv : current ∈ s.visited
    · rw [rstep_eq_skip conns mapid to_cp s current rest hfound hf hv]
      simp [rMeasure, hf]
    · by_cases hto : current = to_cp
      · rw [hto] at hf
        rw [rstep_eq_found conns mapid to_cp s rest hfound hf (hto ▸ hv)] at hnb
        exact absurd (Or.inl rfl) hnb
      · rw [rstep_eq_expand conns mapid to_cp s current rest hfound hf hv hto]
        have hcu : current ∈ nodeUniv conns start :=
          hinv current (by rw [hf]; exact List.mem_cons_self _ _)
        have hcard : (nodeUniv conns start \ (current :: s.visited).toFinset).card + 1 ≤
            (nodeUniv conns start \ s.visited.toFinset).card := by
          have hsub : nodeUniv conns start \ (current :: s.visited).toFinset ⊂
              nodeUniv conns start \ s.visited.toFinset := by
            constructor
            · intro x hx
              simp only [Finset.mem_sdiff, List.toFinset_cons, Finset.mem_insert,
                List.mem_toFinset] at hx ⊢
              exact ⟨hx.1, fun hmem => hx.2 (Or.inr hmem)⟩
            · intro hcontra
              have : current ∈ nodeUniv conns start \ (current :: s.visited).toFinset :=
                hcontra (by simp [Finset.mem_sdiff, hcu, hv])
              simp at this
          exact Nat.succ_le_of_lt (Finset.card_lt_card hsub)
        have hkids : ((childrenOf conns current mapid).filter
            (fun c => c ∉ current :: s.visited)).length ≤ conns.length :=
          le_trans (List.length_filter_le _ _) (childrenOf_length_le conns current mapid)
        simp only [rMeasure, hf, List.length_append, List.length_cons]
        have hmul := Nat.mul_le_mul_right (conns.length + 1) hcard
        nlinarith [hkids, hmul]

/-- Enough fuel exits the reachability loop. -/
theorem rRun_done_of_fuel (conns : List Connection) (mapid start to_cp : Int) :
    ∀ k s, (∀ x ∈ s.frontier, x ∈ nodeUniv conns start) →
    rMeasure conns start s < k → rDone (rRun conns mapid to_cp k s) := by
  intro k
  induction k with
  | zero =>
    intro s _ hm
    exact absurd hm (Nat.not_lt_zero _)
  | succ k ih =>
    intro s hinv hm
    by_cases hdone : rDone s
    · rw [rRun, rstep_of_done conns mapid to_cp s hdone,
        rRun_of_done conns mapid to_cp k s hdone]
      exact hdone
    · rw [rRun]
      by_cases hnb : rDone (rstep conns mapid to_cp s)
      · rw [rRun_of_done conns mapid to_cp k _ hnb]
        exact hnb
      · exact ih (rstep conns mapid to_cp s)
          (frontier_univ_rstep conns mapid start to_cp s hinv)
          (by have := rMeasure_rstep_lt conns mapid start to_cp s hinv hdone hnb; omega)

/-- The reachability loop answers true exactly when a directed path exists. -/
theorem is_reachable_iff (conns : List Connection) (mapid from_cp to_cp : Int) :
    is_reachable conns mapid from_cp to_cp = true ↔ Reaches conns mapid from_cp to_cp := by
  have hinv0 := RInv_initR conns mapid from_cp to_cp
  have hfin : RInv conns mapid from_cp to_cp
      (rRun conns mapid to_cp (rFuel conns from_cp) (initR from_cp)) :=
    RInv_rRun conns mapid from_cp to_cp (rFuel conns from_cp) (initR from_cp) hinv0
  have hdone : rDone (rRun conns mapid to_cp (rFuel conns from_cp) (initR from_cp)) :=
    rRun_done_of_fuel conns mapid from_cp to_cp (rFuel conns from_cp) (initR from_cp)
      hinv0.frontier_univ (by unfold rFuel; omega)
  constructor
  · intro h
    exact hfin.found_reach h
  · intro h
    by_contra hfalse
    have hnf : (rRun conns mapid to_cp (rFuel conns from_cp) (initR from_cp)).found = false := by
      rcases Bool.eq_false_or_eq_true
          (rRun conns mapid to_cp (rFuel conns from_cp) (initR from_cp)).found with hb | hb
      · exact absurd hb hfalse
      · exact hb
    have hfr : (rRun conns mapid to_cp (rFuel conns from_cp) (initR from_cp)).frontier = [] := by
      rcases hdone with hd | hd
      · rw [hnf] at hd
        exact absurd hd (by simp)
      · exact hd
    have hstart : from_cp ∈ (rRun conns mapid to_cp (rFuel conns from_cp) (initR from_cp)).visited := by
      rcases hfin.start_tracked with hs | hs | hs
      · exact hs
      · rw [hfr] at hs
        exact absurd hs (List.not_mem_nil _)
      · rw [hnf] at hs
        exact absurd hs (by simp)
    have hvis : ∀ z, Reaches conns mapid from_cp z →
        z ∈ (rRun conns mapid to_cp (rFuel conns from_cp) (initR from_cp)).visited := by
      intro z hz
      induction hz with
      | refl => exact hstart
      | tail _ hedge ih =>
        rcases hfin.closed _ ih _ hedge with h1 | h1
        · exact h1
        · rw [hfr] at h1
          exact absurd h1 (List.not_mem_nil _)
    exact hfin.to_not_visited (hvis to_cp h)

/-- get_checkpoint_times_for_run (lines 492-513): the (cp_id, time_played)
entry list of one run, backing the Python dict built there.  The SQL ORDER BY
time_played only decides which entry wins when the same (run, checkpoint) key
occurs in two rows, which the keyed table rules out; the dict is modelled as
first-match lookup over this entry list. -/
def get_checkpoint_times_for_run (stats : List SegStat) (run_id : Int) : List (Int × Int) :=
  (stats.filter (fun s => s.run_id = run_id)).map (fun s => (s.cp_id, s.time_played))

/-- The bulk UPDATE of fix_cheated_run (lines 557-565): add the adjustment to
time_played on every row matching the run and a checkpoint of the set; rows
are neither created nor deleted. -/
def updateSegStats (stats : List SegStat) (run_id : Int) (cps : List Int) (delta : Int) :
    List SegStat :=
  stats.map (fun s =>
    if s.run_id = run_id ∧ s.cp_id ∈ cps then
      { s with time_played := s.time_played + delta }
    else s)

/-- The bulk UPDATE of revert_from_csv (lines 729-737): the same statement with
subtraction. -/
def updateSegStatsSub (stats : List SegStat) (run_id : Int) (cps : List Int) (delta : Int) :
    List SegStat :=
  stats.map (fun s =>
    if s.run_id = run_id ∧ s.cp_id ∈ cps then
      { s with time_played := s.time_played - delta }
    else s)

/-- cursor.rowcount after the bulk UPDATE: the MySQL client reports the number
of rows the statement actually changed, so a zero delta changes, and counts,
nothing. -/
def rowsAffected (stats : List SegStat) (run_id : Int) (cps : List Int) (delta : Int) : Nat :=
  if delta = 0 then 0
  else (stats.filter (fun s => s.run_id = run_id ∧ s.cp_id ∈ cps)).length

/-- fix_cheated_run (lines 515-607): the repair transaction for one run.
Returns the success flag together with the resulting store: the updated store
exactly when the transaction commits, the unchanged store on every rollback or
fail-fast path.  The checks run in source order: empty checkpoint set, lost
connection, empty pre-image snapshot, zero rows affected, then per-checkpoint
post-update verification against the snapshot (current_times[cp_id] there can
never miss, because every re-read row belongs to the run whose rows were all
snapshot; a miss is modelled as a failed check). -/
def fix_cheated_run (st : Store) (connected : Bool)
    (run_id to_cp_id mapid adjustment_ticks : Int) (following_cps : List Int) :
    Bool × Store :=
  if following_cps = [] then (false, st)
  else if connected = false then (false, st)
  else
    let current_times := get_checkpoint_times_for_run st.stats run_id
    if current_times = [] then (false, st)
    else
      let newStats := updateSegStats st.stats run_id following_cps adjustment_ticks
      if rowsAffected st.stats run_id following_cps adjustment_ticks = 0 then (false, st)
      else
        let updated_rows := newStats.filter
          (fun s => s.run_id = run_id ∧ s.cp_id ∈ following_cps)
        if updated_rows.all (fun s =>
            match List.lookup s.cp_id current_times with
            | some t => s.time_played == t + adjustment_ticks
            | none => false) then
          (true, { st with stats := newStats })
        else (false, st)

/-- One iteration of the revert loop of revert_from_csv (lines 707-750) for a
single audit row: recompute the downstream set fresh from the connection graph,
subtract the logged adjustment from the matching rows inside a transaction and
commit.  The row count is only printed, never checked, and there is no
post-update verification.  Returns whether the run was counted as reverted,
together with the resulting store. -/
def revert_run (st : Store) (run_id mapid to_cp_id old_time new_time : Int) : Bool × Store :=
  let adjustment := new_time - old_time
  let following_cps := get_following_checkpoints st.connections to_cp_id mapid
  if following_cps = [] then (false, st)
  else (true, { st with stats := updateSegStatsSub st.stats run_id following_cps adjustment })

/-- get_map_name (lines 349-368). -/
def get_map_name (maps : List (Int × String)) (mapid : Int) : String :=
  match maps.find? (fun m => m.1 = mapid) with
  | some m => m.2
  | none => "Unknown"

/-- get_final_checkpoint_time (lines 370-410): the largest time_played among
the rows of the run joined to a terminal checkpoint of the map (ORDER BY
time_played DESC LIMIT 1); none models the raised data-integrity
ValidationError. -/
def get_final_checkpoint_time (st : Store) (run_id mapid : Int) : Option Int :=
  (st.stats.flatMap (fun cs =>
    st.checkpoints.filterMap (fun c =>
      if cs.cp_id = c.cp_id ∧ cs.run_id = run_id ∧ c.mapid = mapid ∧ c.isend = true then
        some cs.time_played
      else none))).max?

/-- One row of the self-join query of find_cheated_runs (lines 430-447). -/
structure CandidateRow where
  run_id : Int
  start_time : Int
  end_time : Int
  mapid : Int
  playername : String
  player_id : Int
  fps : Int
deriving DecidableEq

/-- The SQL self-join of find_cheated_runs (lines 430-449): all combinations
of a start row, an end row of the same run and the run row, restricted to the
two checkpoints, a strictly forward segment, a segment time below the
reference, and finished runs. -/
def queryCandidateRows (st : Store) (from_cp_id to_cp_id : Int) (ref_time_ticks : ℚ) :
    List CandidateRow :=
  st.stats.flatMap (fun s =>
    st.stats.flatMap (fun e =>
      st.playerRuns.filterMap (fun pr =>
        if s.run_id = e.run_id ∧ pr.run_id = s.run_id ∧ s.cp_id = from_cp_id ∧
            e.cp_id = to_cp_id ∧ s.time_played < e.time_played ∧
            ((e.time_played - s.time_played : ℤ) : ℚ) < ref_time_ticks ∧
            pr.finished_map = true then
          some { run_id := s.run_id, start_time := s.time_played, end_time := e.time_played,
                 mapid := pr.mapid, playername := pr.playername, player_id := pr.player_id,
                 fps := pr.fps }
        else none)))

/-- One entry of the list find_cheated_runs returns (lines 469-483); the two
display strings built by ticks_to_time_format are reporting output and left
out. -/
structure CheatedRun where
  run_id : Int
  player_id : Int
  playername : String
  mapid : Int
  map_name : String
  fps : Int
  end_cp_time : Int
  old_time_played : Int
  actual_time : ℚ
  ref_time : ℚ
  adjustment_ticks : Int
  adjustment_seconds : ℚ
deriving DecidableEq

/-- The entry find_cheated_runs builds for one joined row once the final
checkpoint time is known (lines 454-483). -/
def mkCheatedRun (st : Store) (ref_time : ℚ) (row : CandidateRow) (final_time : Int) :
    CheatedRun :=
  { run_id := row.run_id
    player_id := row.player_id
    playername := row.playername
    mapid := row.mapid
    map_name := get_map_name st.mapids row.mapid
    fps := row.fps
    end_cp_time := row.end_time
    old_time_played := final_time
    actual_time := ((row.end_time - row.start_time : ℤ) : ℚ) / 20
    ref_time := ref_time
    adjustment_ticks := pyInt (ref_time * 20 - ((row.end_time - row.start_time : ℤ) : ℚ))
    adjustment_seconds := (pyInt (ref_time * 20 - ((row.end_time - row.start_time : ℤ) : ℚ)) : ℚ) / 20 }

/-- find_cheated_runs (lines 412-490): join, per-row deficit via Python
int() truncation, drop (with a printed warning) any matched run without a
terminal-checkpoint record, sort ascending by fps then by final time. -/
def find_cheated_runs (st : Store) (from_cp_id to_cp_id : Int) (ref_time : ℚ) :
    List CheatedRun :=
  let ref_time_ticks := ref_time * 20
  let matched := (queryCandidateRows st from_cp_id to_cp_id ref_time_ticks).filterMap
    (fun row =>
      match get_final_checkpoint_time st row.run_id row.mapid with
      | none => none
      | some final_time => some (mkCheatedRun st ref_time row final_time))
  matched.mergeSort (fun a b =>
    a.fps < b.fps ∨ (a.fps = b.fps ∧ a.old_time_played ≤ b.old_time_played))

/-- The start checkpoint is in the downstream set it seeds. -/
theorem self_mem_get_following (conns : List Connection) (mapid x : Int) :
    x ∈ get_following_checkpoints conns x mapid := by
  unfold get_following_checkpoints
  exact following_subset_bfsRun conns mapid (bfsFuel conns x) (initB x) (by simp [initB])

/-- With no outgoing edges the BFS stops after expanding the start node. -/
theorem get_following_of_no_children (conns : List Connection) (mapid x : Int)
    (h : childrenOf conns x mapid = []) :
    get_following_checkpoints conns x mapid = [x] := by
  have h1 : bstep conns mapid (initB x) =
      { following := [x], frontier := [], visited := [x] } := by
    rw [bstep_eq_expand conns mapid (initB x) x [] rfl (by simp [initB])]
    simp [initB, h]
  have h2 : bfsFuel conns x ≠ 0 := by
    simp only [bfsFuel, bMeasure, initB, List.length_singleton]
    omega
  obtain ⟨n, hn⟩ := Nat.exists_eq_succ_of_ne_zero h2
  unfold get_following_checkpoints
  rw [hn, bfsRun, h1, bfsRun_of_done conns mapid n _ rfl]

/-- C5: for every checkpoint x and map, the downstream set computed by
get_following_checkpoints contains x itself, and when x has no outgoing edge
on that map the set is exactly the singleton containing x. -/
theorem downstream_set_self_and_singleton (conns : List Connection) (mapid x : Int) :
    x ∈ get_following_checkpoints conns x mapid ∧
    (childrenOf conns x mapid = [] → get_following_checkpoints conns x mapid = [x]) :=
  ⟨self_mem_get_following conns mapid x, get_following_of_no_children conns mapid x⟩

/-- Witness for C5 at a concrete graph with no outgoing edge from the start. -/
theorem downstream_set_self_and_singleton_witness :
    3 ∈ get_following_checkpoints [] 3 1 ∧ get_following_checkpoints [] 3 1 = [3] :=
  ⟨(downstream_set_self_and_singleton [] 1 3).1,
   (downstream_set_self_and_singleton [] 1 3).2 (by decide)⟩

/-- C6: on every finite connection graph, cyclic or not, the downstream-set
BFS of get_following_checkpoints drains its work list after finitely many
iterations: the visited set bounds re-expansion. -/
theorem downstream_bfs_terminates (conns : List Connection) (mapid start : Int) :
    ∃ n, (bfsRun conns mapid n (initB start)).frontier = [] :=
  ⟨bfsFuel conns start,
    bfsRun_done_of_fuel conns mapid start (bfsFuel conns start) (initB start)
      (BInv_initB conns start) le_rfl⟩

/-- C7: the reachability loop of validate_checkpoints returns true exactly
when a directed path over the edges scoped to the map leads from the start to
the target; a checkpoint trivially reaches itself, and absence of a path is
reported as the value false, not as an error. -/
theorem is_reachable_correct (conns : List Connection) (mapid : Int) :
    (∀ from_cp to_cp : Int, is_reachable conns mapid from_cp to_cp = true ↔
      Reaches conns mapid from_cp to_cp) ∧
    (∀ x : Int, is_reachable conns mapid x x = true) :=
  ⟨fun a b => is_reachable_iff conns mapid a b,
   fun x => (is_reachable_iff conns mapid x x).mpr Relation.ReflTransGen.refl⟩

/-- C8: validate_input_parameters accepts exactly positive, distinct ids with
a reference time in the half-open interval (0.05, 3600]; equal ids are
rejected for every reference time, 0.05 exactly is rejected and 3600 exactly
is accepted. -/
theorem validate_input_parameters_correct :
    (∀ (f t : Int) (r : ℚ), (validate_input_parameters f t r).isOk = true ↔
      (0 < f ∧ 0 < t ∧ f ≠ t ∧ 0.05 < r ∧ r ≤ 3600)) ∧
    (∀ r : ℚ, (validate_input_parameters 5 5 r).isOk = false) ∧
    (validate_input_parameters 1 2 0.05).isOk = false ∧
    (validate_input_parameters 1 2 3600).isOk = true := by
  refine ⟨?_, ?_, ?_, ?_⟩
  · intro f t r
    unfold validate_input_parameters
    split_ifs with h1 h2 h3 h4 h5
    · simp only [Except.isOk, Except.toBool, Bool.false_eq_true, false_iff, not_and]
      intro hf
      omega
    · simp only [Except.isOk, Except.toBool, Bool.false_eq_true, false_iff, not_and]
      intro hf ht
      omega
    · simp only [Except.isOk, Except.toBool, Bool.false_eq_true, false_iff, not_and]
      exact fun _ _ hne => absurd h3 hne
    · simp only [Except.isOk, Except.toBool, Bool.false_eq_true, false_iff, not_and]
      exact fun _ _ _ hr => absurd h4 (not_le.mpr hr)
    · simp only [Except.isOk, Except.toBool, Bool.false_eq_true, false_iff, not_and]
      exact fun _ _ _ _ hr => absurd h5 (not_lt.mpr hr)
    · simp only [Except.isOk, Except.toBool, true_iff]
      exact ⟨by omega, by omega, h3, not_le.mp h4, not_lt.mp h5⟩
  · intro r
    norm_num [validate_input_parameters, Except.isOk, Except.toBool]
  · norm_num [validate_input_parameters, Except.isOk, Except.toBool]
  · norm_num [validate_input_parameters, Except.isOk, Except.toBool]

/-- A map pairs each row with its image. -/
theorem forall2_map_self {α : Type} (l : List α) (f : α → α) :
    List.Forall₂ (fun a b => b = f a) l (l.map f) := by
  induction l with
  | nil => exact List.Forall₂.nil
  | cons x xs ih => exact List.Forall₂.cons rfl ih

/-- The bulk addition UPDATE row by row: ids survive, matching rows gain the
delta, all other rows are untouched. -/
theorem updateSegStats_forall2 (stats : List SegStat) (run delta : Int) (cps : List Int) :
    List.Forall₂ (fun pre post =>
      post.run_id = pre.run_id ∧ post.cp_id = pre.cp_id ∧
      (pre.run_id = run ∧ pre.cp_id ∈ cps → post.time_played = pre.time_played + delta) ∧
      (¬(pre.run_id = run ∧ pre.cp_id ∈ cps) → post = pre))
      stats (updateSegStats stats run cps delta) := by
  refine (forall2_map_self stats _).imp ?_
  intro pre post hpost
  subst hpost
  by_cases hc : pre.run_id = run ∧ pre.cp_id ∈ cps
  · simp [hc]
  · simp [hc]

/-- The bulk subtraction UPDATE row by row. -/
theorem updateSegStatsSub_forall2 (stats : List SegStat) (run delta : Int) (cps : List Int) :
    List.Forall₂ (fun pre post =>
      post.run_id = pre.run_id ∧ post.cp_id = pre.cp_id ∧
      (pre.run_id = run ∧ pre.cp_id ∈ cps → post.time_played = pre.time_played - delta) ∧
      (¬(pre.run_id = run ∧ pre.cp_id ∈ cps) → post = pre))
      stats (updateSegStatsSub stats run cps delta) := by
  refine (forall2_map_self stats _).imp ?_
  intro pre post hpost
  subst hpost
  by_cases hc : pre.run_id = run ∧ pre.cp_id ∈ cps
  · simp [hc]
  · simp [hc]

/-- Subtracting an adjustment undoes adding it, row by row. -/
theorem updateSegStatsSub_updateSegStats (stats : List SegStat) (run delta : Int)
    (cps : List Int) :
    updateSegStatsSub (updateSegStats stats run cps delta) run cps delta = stats := by
  unfold updateSegStats updateSegStatsSub
  rw [List.map_map]
  apply List.map_id''
  intro s
  obtain ⟨r, c, t⟩ := s
  by_cases hc : r = run ∧ c ∈ cps
  · simp [Function.comp, hc]
  · simp [Function.comp, hc]

/-- The repair transaction either commits, leaving exactly the updated store,
or fails, leaving the store untouched. -/
theorem fix_cheated_run_shape (st : Store) (connected : Bool)
    (run_id to_cp_id mapid adj : Int) (cps : List Int) :
    fix_cheated_run st connected run_id to_cp_id mapid adj cps =
        (true, { st with stats := updateSegStats st.stats run_id cps adj }) ∨
    fix_cheated_run st connected run_id to_cp_id mapid adj cps = (false, st) := by
  unfold fix_cheated_run
  dsimp only
  split_ifs <;> first | exact Or.inl rfl | exact Or.inr rfl

/-- Dict lookup over the entry list of a run finds the unique row's time. -/
theorem lookup_map_pair_of_nodup (l : List SegStat)
    (hnd : (l.map (fun s => s.cp_id)).Nodup) (s : SegStat) (hs : s ∈ l) :
    List.lookup s.cp_id (l.map (fun x => (x.cp_id, x.time_played))) = some s.time_played := by
  induction l with
  | nil => exact absurd hs (List.not_mem_nil s)
  | cons x xs ih =>
    rw [List.map_cons, List.lookup_cons]
    rcases List.mem_cons.mp hs with rfl | hs
    · simp
    · have hx : x.cp_id ∉ xs.map (fun s => s.cp_id) := by
        rw [List.map_cons] at hnd
        exact (List.nodup_cons.mp hnd).1
      have hne : s.cp_id ≠ x.cp_id := by
        intro hcontra
        exact hx (hcontra ▸ List.mem_map_of_mem _ hs)
      have hbeq : (s.cp_id == x.cp_id) = false := beq_eq_false_iff_ne.mpr hne
      rw [hbeq]
      exact ih (by rw [List.map_cons] at hnd; exact (List.nodup_cons.mp hnd).2) hs

/-- The snapshot lookup of fix_cheated_run returns the pre-image time of each
row of the run, provided the run's rows carry distinct checkpoint keys. -/
theorem lookup_get_checkpoint_times (stats : List SegStat) (run_id : Int)
    (hnodup : ((stats.filter (fun s => s.run_id = run_id)).map (fun s => s.cp_id)).Nodup)
    (s : SegStat) (hs : s ∈ stats) (hrun : s.run_id = run_id) :
    List.lookup s.cp_id (get_checkpoint_times_for_run stats run_id) = some s.time_played := by
  unfold get_checkpoint_times_for_run
  exact lookup_map_pair_of_nodup _ hnodup s (List.mem_filter.mpr ⟨hs, by simp [hrun]⟩)

/-- With unique checkpoint keys for the run, the post-update verification of
fix_cheated_run passes on every re-read row. -/
theorem fix_verification_passes (stats : List SegStat) (run_id adj : Int) (cps : List Int)
    (hnodup : ((stats.filter (fun s => s.run_id = run_id)).map (fun s => s.cp_id)).Nodup) :
    ((updateSegStats stats run_id cps adj).filter
      (fun s => s.run_id = run_id ∧ s.cp_id ∈ cps)).all
      (fun s => match List.lookup s.cp_id (get_checkpoint_times_for_run stats run_id) with
        | some t => s.time_played == t + adj
        | none => false) = true := by
  rw [List.all_eq_true]
  intro u hu
  obtain ⟨hu_mem, hu_cond⟩ := List.mem_filter.mp hu
  obtain ⟨pre, hpre, hupre⟩ := List.mem_map.mp hu_mem
  by_cases hc : pre.run_id = run_id ∧ pre.cp_id ∈ cps
  · rw [if_pos hc] at hupre
    have hcp : u.cp_id = pre.cp_id := by rw [← hupre]
    have htime : u.time_played = pre.time_played + adj := by rw [← hupre]
    rw [hcp, htime, lookup_get_checkpoint_times stats run_id hnodup pre hpre hc.1]
    simp
  · rw [if_neg hc] at hupre
    subst hupre
    rw [decide_eq_true_eq] at hu_cond
    exact absurd hu_cond hc

/-- revert_run always succeeds: the freshly recomputed downstream set contains
its seed, so the empty-set guard never fires, and the subtraction commits with
no row-count check and no verification. -/
theorem revert_run_eq (st : Store) (run_id mapid to_cp_id old_time new_time : Int) :
    revert_run st run_id mapid to_cp_id old_time new_time =
      (true, { st with stats := (updateSegStatsSub st.stats run_id
          (get_following_checkpoints st.connections to_cp_id mapid)
          (new_time - old_time)) }) := by
  have hne : get_following_checkpoints st.connections to_cp_id mapid ≠ [] :=
    List.ne_nil_of_mem (self_mem_get_following st.connections mapid to_cp_id)
  unfold revert_run
  dsimp only
  rw [if_neg hne]

/-- A store with no segment rows at all: any bulk UPDATE matches zero rows. -/
def emptyStore : Store :=
  { checkpoints := [], connections := [], playerRuns := [], mapids := [], stats := [] }

/-- C1 counterexample: on a store where the update matches zero rows, apply
aborts with rollback, yet revert still commits and reports the run as
reverted, so revert does not follow apply's zero-row abort. -/
theorem revert_zero_rows_still_commits :
    (fix_cheated_run emptyStore true 7 5 1 50
      (get_following_checkpoints emptyStore.connections 5 1)).1 = false ∧
    (emptyStore.stats.filter (fun s => s.run_id = 7 ∧
      s.cp_id ∈ get_following_checkpoints emptyStore.connections 5 1)).length = 0 ∧
    (revert_run emptyStore 7 1 5 100 150).1 = true ∧
    (revert_run emptyStore 7 1 5 100 150).2 = emptyStore := by
  decide

/-- C1 (amended): revert recomputes the downstream set fresh from the
connection graph and subtracts the logged adjustment inside its per-run
transaction, but unlike apply it has no zero-row abort and no post-image
verification: it commits unconditionally and reports success. -/
theorem revert_run_characterization (st : Store)
    (run_id mapid to_cp_id old_time new_time : Int) :
    (revert_run st run_id mapid to_cp_id old_time new_time).1 = true ∧
    (revert_run st run_id mapid to_cp_id old_time new_time).2 =
      { st with stats := (updateSegStatsSub st.stats run_id
          (get_following_checkpoints st.connections to_cp_id mapid)
          (new_time - old_time)) } := by
  rw [revert_run_eq]
  exact ⟨rfl, rfl⟩

/-- A committing repair passed the per-checkpoint verification. -/
theorem fix_success_all (st : Store) (connected : Bool)
    (run_id to_cp_id mapid adj : Int) (cps : List Int)
    (h : (fix_cheated_run st connected run_id to_cp_id mapid adj cps).1 = true) :
    ((updateSegStats st.stats run_id cps adj).filter
      (fun s => s.run_id = run_id ∧ s.cp_id ∈ cps)).all
      (fun s => match List.lookup s.cp_id (get_checkpoint_times_for_run st.stats run_id) with
        | some t => s.time_played == t + adj
        | none => false) = true := by
  unfold fix_cheated_run at h
  dsimp only at h
  split_ifs at h with h1 h2 h3 h4 h5
  exact h5

/-- C3: the repair transaction is atomic: on any failure path, in particular a
post-update verification mismatch, the whole store is unchanged; it commits
only when every re-read row passes verification against the snapshot, and on
commit every matching row holds exactly its pre-image plus the deficit while
every other row is untouched — never a partial application. -/
theorem fix_cheated_run_atomic (st : Store) (connected : Bool)
    (run_id to_cp_id mapid adj : Int) (cps : List Int) :
    ((fix_cheated_run st connected run_id to_cp_id mapid adj cps).1 = false →
      (fix_cheated_run st connected run_id to_cp_id mapid adj cps).2 = st) ∧
    ((fix_cheated_run st connected run_id to_cp_id mapid adj cps).1 = true →
      ((updateSegStats st.stats run_id cps adj).filter
        (fun s => s.run_id = run_id ∧ s.cp_id ∈ cps)).all
        (fun s => match List.lookup s.cp_id (get_checkpoint_times_for_run st.stats run_id) with
          | some t => s.time_played == t + adj
          | none => false) = true ∧
      List.Forall₂ (fun pre post =>
        post.run_id = pre.run_id ∧ post.cp_id = pre.cp_id ∧
        (pre.run_id = run_id ∧ pre.cp_id ∈ cps → post.time_played = pre.time_played + adj) ∧
        (¬(pre.run_id = run_id ∧ pre.cp_id ∈ cps) → post = pre))
        st.stats (fix_cheated_run st connected run_id to_cp_id mapid adj cps).2.stats) := by
  constructor
  · intro hfail
    rcases fix_cheated_run_shape st connected run_id to_cp_id mapid adj cps with hs | hs
    · rw [hs] at hfail
      simp at hfail
    · rw [hs]
  · intro hsucc
    refine ⟨fix_success_all st connected run_id to_cp_id mapid adj cps hsucc, ?_⟩
    rcases fix_cheated_run_shape st connected run_id to_cp_id mapid adj cps with hs | hs
    · rw [hs]
      exact updateSegStats_forall2 st.stats run_id adj cps
    · rw [hs] at hsucc
      simp at hsucc

/-- Witness for C3 on a concrete store: a failed repair leaves it unchanged. -/
theorem fix_cheated_run_atomic_witness :
    (fix_cheated_run emptyStore true 1 2 1 50 []).2 = emptyStore :=
  (fix_cheated_run_atomic emptyStore true 1 2 1 50 []).1 (by decide)

/-- C4: applying a deficit and then reverting it with the same deficit over
the same recomputed downstream set restores the store exactly. -/
theorem apply_then_revert_round_trip (st : Store) (connected : Bool)
    (run_id to_cp_id mapid d old_time new_time : Int) (cps : List Int)
    (happly : (fix_cheated_run st connected run_id to_cp_id mapid d cps).1 = true)
    (hset : get_following_checkpoints st.connections to_cp_id mapid = cps)
    (hd : new_time - old_time = d) :
    (revert_run (fix_cheated_run st connected run_id to_cp_id mapid d cps).2
      run_id mapid to_cp_id old_time new_time).2 = st := by
  rcases fix_cheated_run_shape st connected run_id to_cp_id mapid d cps with hs | hs
  · have h2 : (fix_cheated_run st connected run_id to_cp_id mapid d cps).2 =
        { st with stats := updateSegStats st.stats run_id cps d } := by rw [hs]
    rw [h2, revert_run_eq]
    dsimp only
    rw [hset, hd, updateSegStatsSub_updateSegStats]
  · rw [hs] at happly
    simp at happly

/-- The spec example: pre-image rows A:100, B:200 for the repaired run. -/
def roundTripStore : Store :=
  { checkpoints := [], connections := [⟨1, 2, 1⟩], playerRuns := [], mapids := [],
    stats := [⟨1, 1, 100⟩, ⟨1, 2, 200⟩] }

/-- Witness for C4 at the spec example with deficit 50. -/
theorem apply_then_revert_round_trip_witness :
    (fix_cheated_run roundTripStore true 1 1 1 50 [1, 2]).1 = true ∧
    get_following_checkpoints roundTripStore.connections 1 1 = [1, 2] ∧
    (revert_run (fix_cheated_run roundTripStore true 1 1 1 50 [1, 2]).2 1 1 1 0 50).2 =
      roundTripStore :=
  ⟨by decide, by decide,
    apply_then_revert_round_trip roundTripStore true 1 1 1 50 0 50 [1, 2]
      (by decide) (by decide) (by decide)⟩

/-- C9: frame condition of repair: apply and revert leave the checkpoints,
connections, player_runs and mapids tables unchanged, create and delete no
statistics rows, keep every row's (run, checkpoint) key, and leave every row
outside the repaired run's update set fully untouched. -/
theorem repair_frame (st : Store) (connected : Bool)
    (run_id to_cp_id mapid adj run2 mapid2 to_cp2 old2 new2 : Int) (cps : List Int) :
    ((fix_cheated_run st connected run_id to_cp_id mapid adj cps).2.checkpoints =
        st.checkpoints ∧
      (fix_cheated_run st connected run_id to_cp_id mapid adj cps).2.connections =
        st.connections ∧
      (fix_cheated_run st connected run_id to_cp_id mapid adj cps).2.playerRuns =
        st.playerRuns ∧
      (fix_cheated_run st connected run_id to_cp_id mapid adj cps).2.mapids = st.mapids ∧
      List.Forall₂ (fun pre post =>
        post.run_id = pre.run_id ∧ post.cp_id = pre.cp_id ∧
        (¬(pre.run_id = run_id ∧ pre.cp_id ∈ cps) → post = pre))
        st.stats (fix_cheated_run st connected run_id to_cp_id mapid adj cps).2.stats) ∧
    ((revert_run st run2 mapid2 to_cp2 old2 new2).2.checkpoints = st.checkpoints ∧
      (revert_run st run2 mapid2 to_cp2 old2 new2).2.connections = st.connections ∧
      (revert_run st run2 mapid2 to_cp2 old2 new2).2.playerRuns = st.playerRuns ∧
      (revert_run st run2 mapid2 to_cp2 old2 new2).2.mapids = st.mapids ∧
      List.Forall₂ (fun pre post =>
        post.run_id = pre.run_id ∧ post.cp_id = pre.cp_id ∧
        (¬(pre.run_id = run2 ∧
            pre.cp_id ∈ get_following_checkpoints st.connections to_cp2 mapid2) →
          post = pre))
        st.stats (revert_run st run2 mapid2 to_cp2 old2 new2).2.stats) := by
  constructor
  · rcases fix_cheated_run_shape st connected run_id to_cp_id mapid adj cps with hs | hs
    · rw [hs]
      refine ⟨rfl, rfl, rfl, rfl, ?_⟩
      refine (updateSegStats_forall2 st.stats run_id adj cps).imp ?_
      intro pre post hp
      exact ⟨hp.1, hp.2.1, hp.2.2.2⟩
    · rw [hs]
      refine ⟨rfl, rfl, rfl, rfl, ?_⟩
      exact List.forall₂_same.mpr (fun x _ => ⟨rfl, rfl, fun _ => rfl⟩)
  · rw [revert_run_eq]
    refine ⟨rfl, rfl, rfl, rfl, ?_⟩
    refine (updateSegStatsSub_forall2 st.stats run2 (new2 - old2)
      (get_following_checkpoints st.connections to_cp2 mapid2)).imp ?_
    intro pre post hp
    exact ⟨hp.1, hp.2.1, hp.2.2.2⟩

/-- Witness for C9: the concrete frame of a committed repair. -/
theorem repair_frame_witness :
    (fix_cheated_run emptyStore true 1 2 1 50 [2]).2.connections = emptyStore.connections :=
  ((repair_frame emptyStore true 1 2 1 50 1 1 1 0 50 [2]).1).2.1

/-- A store holding exactly one segment row. -/
def oneRowStore : Store :=
  { checkpoints := [], connections := [], playerRuns := [], mapids := [],
    stats := [⟨1, 2, 100⟩] }

/-- C10 counterexample: with a zero deficit the UPDATE changes no row, the
client reports zero rows affected, and apply rolls back and fails even though
a checkpoint of the set has a record for the run. -/
theorem fix_zero_deficit_fails :
    (∃ s ∈ oneRowStore.stats, s.run_id = 1 ∧ s.cp_id ∈ [2, 3]) ∧
    (fix_cheated_run oneRowStore true 1 2 1 0 [2, 3]).1 = false ∧
    (fix_cheated_run oneRowStore true 1 2 1 0 [2, 3]).2 = oneRowStore := by
  decide

/-- C10 (amended): with a nonzero deficit, apply commits and reports success
whenever at least one checkpoint of the set has a row for the run: the
existing matching rows are incremented and verified, while checkpoints of the
set without a row are silently skipped and no row is created for them. -/
theorem fix_cheated_run_partial_set (st : Store) (connected : Bool)
    (run_id to_cp_id mapid adj : Int) (cps : List Int)
    (hconn : connected = true) (hadj : adj ≠ 0)
    (hnodup : ((st.stats.filter (fun s => s.run_id = run_id)).map (fun s => s.cp_id)).Nodup)
    (hrec : ∃ s ∈ st.stats, s.run_id = run_id ∧ s.cp_id ∈ cps) :
    (fix_cheated_run st connected run_id to_cp_id mapid adj cps).1 = true ∧
    (fix_cheated_run st connected run_id to_cp_id mapid adj cps).2 =
      { st with stats := updateSegStats st.stats run_id cps adj } ∧
    (∀ cp, (∀ s ∈ st.stats, ¬(s.run_id = run_id ∧ s.cp_id = cp)) →
      ∀ s2 ∈ (fix_cheated_run st connected run_id to_cp_id mapid adj cps).2.stats,
        ¬(s2.run_id = run_id ∧ s2.cp_id = cp)) := by
  subst hconn
  obtain ⟨s0, hs0, hs0run, hs0cp⟩ := hrec
  have hcps : cps ≠ [] := List.ne_nil_of_mem hs0cp
  have hct : get_checkpoint_times_for_run st.stats run_id ≠ [] := by
    unfold get_checkpoint_times_for_run
    intro hcontra
    rw [List.map_eq_nil_iff] at hcontra
    have hmem : s0 ∈ st.stats.filter (fun s => s.run_id = run_id) :=
      List.mem_filter.mpr ⟨hs0, by simp [hs0run]⟩
    rw [hcontra] at hmem
    exact absurd hmem (List.not_mem_nil _)
  have hra : rowsAffected st.stats run_id cps adj ≠ 0 := by
    unfold rowsAffected
    rw [if_neg hadj]
    have hmem : s0 ∈ st.stats.filter (fun s => s.run_id = run_id ∧ s.cp_id ∈ cps) :=
      List.mem_filter.mpr ⟨hs0, by simp [hs0run, hs0cp]⟩
    intro hcontra
    rw [List.length_eq_zero] at hcontra
    rw [hcontra] at hmem
    exact absurd hmem (List.not_mem_nil _)
  have hall := fix_verification_passes st.stats run_id adj cps hnodup
  have heq : fix_cheated_run st true run_id to_cp_id mapid adj cps =
      (true, { st with stats := updateSegStats st.stats run_id cps adj }) := by
    unfold fix_cheated_run
    dsimp only
    rw [if_neg hcps, if_neg (by simp), if_neg hct, if_neg hra, if_pos hall]
  refine ⟨by rw [heq], by rw [heq], ?_⟩
  intro cp hnone s2 hs2 hcond
  rw [heq] at hs2
  obtain ⟨pre, hpre, hpres2⟩ := List.mem_map.mp hs2
  have hids : s2.run_id = pre.run_id ∧ s2.cp_id = pre.cp_id := by
    by_cases hc : pre.run_id = run_id ∧ pre.cp_id ∈ cps
    · rw [if_pos hc] at hpres2
      rw [← hpres2]
      exact ⟨rfl, rfl⟩
    · rw [if_neg hc] at hpres2
      rw [← hpres2]
      exact ⟨rfl, rfl⟩
  exact hnone pre hpre ⟨hids.1 ▸ hcond.1, hids.2 ▸ hcond.2⟩

/-- Witness for C10 on a set where only one of two checkpoints has a row. -/
theorem fix_cheated_run_partial_set_witness :
    (fix_cheated_run oneRowStore true 1 2 1 50 [2, 3]).1 = true ∧
    (fix_cheated_run oneRowStore true 1 2 1 50 [2, 3]).2 =
      { oneRowStore with stats := updateSegStats oneRowStore.stats 1 [2, 3] 50 } := by
  have h := fix_cheated_run_partial_set oneRowStore true 1 2 1 50 [2, 3] rfl
    (by decide) (by decide) (by decide)
  exact ⟨h.1, h.2.1⟩

/-- Membership in the self-join result of find_cheated_runs. -/
theorem mem_queryCandidateRows (st : Store) (from_cp_id to_cp_id : Int) (refTicks : ℚ)
    (row : CandidateRow) :
    row ∈ queryCandidateRows st from_cp_id to_cp_id refTicks ↔
    ∃ s ∈ st.stats, ∃ e ∈ st.stats, ∃ pr ∈ st.playerRuns,
      s.run_id = e.run_id ∧ pr.run_id = s.run_id ∧ s.cp_id = from_cp_id ∧
      e.cp_id = to_cp_id ∧ s.time_played < e.time_played ∧
      ((e.time_played - s.time_played : ℤ) : ℚ) < refTicks ∧ pr.finished_map = true ∧
      row = { run_id := s.run_id, start_time := s.time_played, end_time := e.time_played,
              mapid := pr.mapid, playername := pr.playername, player_id := pr.player_id,
              fps := pr.fps } := by
  unfold queryCandidateRows
  simp only [List.mem_flatMap, List.mem_filterMap, Option.ite_none_right_eq_some,
    Option.some.injEq]
  constructor
  · rintro ⟨s, hs, e, he, pr, hpr, ⟨h1, h2, h3, h4, h5, h6, h7⟩, heq⟩
    exact ⟨s, hs, e, he, pr, hpr, h1, h2, h3, h4, h5, h6, h7, heq.symm⟩
  · rintro ⟨s, hs, e, he, pr, hpr, h1, h2, h3, h4, h5, h6, h7, heq⟩
    exact ⟨s, hs, e, he, pr, hpr, ⟨h1, h2, h3, h4, h5, h6, h7⟩, heq.symm⟩

/-- Membership in the detector output: a joined row whose run has a terminal
record, packaged by mkCheatedRun; the sort is a permutation. -/
theorem mem_find_cheated_runs (st : Store) (from_cp_id to_cp_id : Int) (ref_time : ℚ)
    (r : CheatedRun) :
    r ∈ find_cheated_runs st from_cp_id to_cp_id ref_time ↔
    ∃ row ∈ queryCandidateRows st from_cp_id to_cp_id (ref_time * 20), ∃ ft : Int,
      get_final_checkpoint_time st row.run_id row.mapid = some ft ∧
      r = mkCheatedRun st ref_time row ft := by
  unfold find_cheated_runs
  dsimp only
  rw [(List.mergeSort_perm _ _).mem_iff]
  simp only [List.mem_filterMap]
  constructor
  · rintro ⟨row, hrow, hmatch⟩
    cases hft : get_final_checkpoint_time st row.run_id row.mapid with
    | none =>
      rw [hft] at hmatch
      simp at hmatch
    | some ft =>
      rw [hft] at hmatch
      simp only [Option.some.injEq] at hmatch
      exact ⟨row, hrow, ft, hft, hmatch.symm⟩
  · rintro ⟨row, hrow, ft, hft, hr⟩
    refine ⟨row, hrow, ?_⟩
    rw [hft, hr]

/-- Every deficit the detector reports is nonnegative: the filter guarantees
the truncated difference is taken of a positive rational. -/
theorem find_cheated_runs_adjustment_nonneg (st : Store) (from_cp_id to_cp_id : Int)
    (ref_time : ℚ) (r : CheatedRun) (hr : r ∈ find_cheated_runs st from_cp_id to_cp_id ref_time) :
    0 ≤ r.adjustment_ticks := by
  rw [mem_find_cheated_runs] at hr
  obtain ⟨row, hrow, ft, hft, hr⟩ := hr
  subst hr
  rw [mem_queryCandidateRows] at hrow
  obtain ⟨s, _, e, _, pr, _, h1, h2, h3, h4, h5, h6, h7, hroweq⟩ := hrow
  subst hroweq
  show 0 ≤ pyInt (ref_time * 20 - _)
  unfold pyInt
  have hq : 0 ≤ ref_time * 20 - ((e.time_played - s.time_played : ℤ) : ℚ) := by
    linarith
  rw [if_pos hq]
  exact Int.le_floor.mpr (by exact_mod_cast hq)

/-- C2 (amended): the detector flags exactly the finished runs whose segment
pair is strictly forward, below the reference, and whose run has a
terminal-checkpoint record; the deficit is the Python int() truncation of
referenceTicks minus the segment difference, which is nonnegative but can be
zero when referenceTicks is fractional. -/
theorem find_cheated_runs_characterized (st : Store) (from_cp_id to_cp_id : Int)
    (ref_time : ℚ) :
    (∀ r : CheatedRun, r ∈ find_cheated_runs st from_cp_id to_cp_id ref_time ↔
      ∃ s ∈ st.stats, ∃ e ∈ st.stats, ∃ pr ∈ st.playerRuns,
        s.run_id = e.run_id ∧ pr.run_id = s.run_id ∧ s.cp_id = from_cp_id ∧
        e.cp_id = to_cp_id ∧ s.time_played < e.time_played ∧
        ((e.time_played - s.time_played : ℤ) : ℚ) < ref_time * 20 ∧
        pr.finished_map = true ∧
        ∃ ft : Int, get_final_checkpoint_time st s.run_id pr.mapid = some ft ∧
          r = mkCheatedRun st ref_time
            { run_id := s.run_id, start_time := s.time_played, end_time := e.time_played,
              mapid := pr.mapid, playername := pr.playername, player_id := pr.player_id,
              fps := pr.fps } ft) ∧
    (∀ r ∈ find_cheated_runs st from_cp_id to_cp_id ref_time, 0 ≤ r.adjustment_ticks) := by
  constructor
  · intro r
    rw [mem_find_cheated_runs]
    constructor
    · rintro ⟨row, hrow, ft, hft, hr⟩
      rw [mem_queryCandidateRows] at hrow
      obtain ⟨s, hs, e, he, pr, hpr, h1, h2, h3, h4, h5, h6, h7, hroweq⟩ := hrow
      subst hroweq
      exact ⟨s, hs, e, he, pr, hpr, h1, h2, h3, h4, h5, h6, h7, ft, hft, hr⟩
    · rintro ⟨s, hs, e, he, pr, hpr, h1, h2, h3, h4, h5, h6, h7, ft, hft, hr⟩
      exact ⟨_, (mem_queryCandidateRows st from_cp_id to_cp_id (ref_time * 20) _).mpr
        ⟨s, hs, e, he, pr, hpr, h1, h2, h3, h4, h5, h6, h7, rfl⟩, ft, hft, hr⟩
  · exact fun r hr => find_cheated_runs_adjustment_nonneg st from_cp_id to_cp_id ref_time r hr

/-- Two finished runs over the same too-fast segment; run 2 has no terminal
checkpoint on its map. -/
def exC2 : Store :=
  { checkpoints := [⟨1, 1, false⟩, ⟨2, 1, true⟩]
    connections := []
    playerRuns := [⟨1, 1, 10, "p1", 125, true⟩, ⟨2, 2, 11, "p2", 125, true⟩]
    mapids := []
    stats := [⟨1, 1, 0⟩, ⟨1, 2, 2⟩, ⟨2, 1, 0⟩, ⟨2, 2, 2⟩] }

/-- C2 counterexample: at reference time 0.13s (2.6 ticks) the only flagged
run carries deficit 0 — not round(0.6) = 1 and not strictly positive — and
finished run 2, though its segment satisfies the filter, is not flagged at
all, for want of a terminal record. -/
theorem find_cheated_runs_c2_counterexample :
    ((find_cheated_runs exC2 1 2 (13/100)).map (fun r => (r.run_id, r.adjustment_ticks)) =
      [(1, 0)]) ∧
    round ((13/100 : ℚ) * 20 - ((2 : ℤ) : ℚ)) = 1 ∧
    (∃ s ∈ exC2.stats, ∃ e ∈ exC2.stats, ∃ pr ∈ exC2.playerRuns,
      s.run_id = 2 ∧ e.run_id = 2 ∧ pr.run_id = 2 ∧ s.cp_id = 1 ∧ e.cp_id = 2 ∧
      s.time_played < e.time_played ∧
      ((e.time_played - s.time_played : ℤ) : ℚ) < (13/100 : ℚ) * 20 ∧
      pr.finished_map = true) := by
  refine ⟨?_, ?_, ?_⟩
  · norm_num [find_cheated_runs, queryCandidateRows, get_final_checkpoint_time, exC2,
      mkCheatedRun, pyInt, get_map_name, List.flatMap, List.filterMap]
  · norm_num [round_eq]
  · refine ⟨⟨2, 1, 0⟩, by simp [exC2], ⟨2, 2, 2⟩, by simp [exC2],
      ⟨2, 2, 11, "p2", 125, true⟩, by simp [exC2], rfl, rfl, rfl, rfl, rfl, by norm_num,
      by norm_num, rfl⟩

/-- Witness for C2 at the concrete store: the flagged entry of run 1. -/
theorem find_cheated_runs_characterized_witness :
    (mkCheatedRun exC2 (13/100) ⟨1, 0, 2, 1, "p1", 10, 125⟩ 2) ∈
      find_cheated_runs exC2 1 2 (13/100) ∧
    0 ≤ (mkCheatedRun exC2 (13/100) ⟨1, 0, 2, 1, "p1", 10, 125⟩ 2).adjustment_ticks := by
  have hmem : (mkCheatedRun exC2 (13/100) ⟨1, 0, 2, 1, "p1", 10, 125⟩ 2) ∈
      find_cheated_runs exC2 1 2 (13/100) :=
    (find_cheated_runs_characterized exC2 1 2 (13/100)).1 _ |>.mpr
      ⟨⟨1, 1, 0⟩, by simp [exC2], ⟨1, 2, 2⟩, by simp [exC2],
        ⟨1, 1, 10, "p1", 125, true⟩, by simp [exC2], rfl, rfl, rfl, rfl, by norm_num,
        by norm_num, rfl, 2, by norm_num [get_final_checkpoint_time, exC2, List.flatMap,
          List.filterMap], rfl⟩
  exact ⟨hmem, (find_cheated_runs_characterized exC2 1 2 (13/100)).2 _ hmem⟩

end CheatedRuns
